import Mathlib

set_option maxHeartbeats 1000000

/-!
Shallow embedding of `src/main.py`, a cross-lingual CBOW word-embedding trainer
with negative sampling and a distribution-alignment loss, together with theorems
that check the natural-language specification against this embedding.

Conventions used throughout:
* token ids and counts are `ℕ`;
* tensor entries are idealised as exact numbers (`ℚ` where the computation is
  rational, `ℝ` where the code raises to the floating exponent `0.75`);
* an embedding table (`nn.Embedding`) is a total function `ℕ → Fin D → ℚ`;
* a language is a `Bool` in `DistributionLoss` (`true` = `'src'`, `false` = `'trg'`),
  mirroring the `src=True` flag of the Python code;
* Python dicts keyed by ids preserve insertion order, and ids are inserted in
  ascending order, so `freq.items()` is embedded as a list of `(id, count)` pairs
  in id order.
-/

/-! ## Corpus reader (`Corpus` in `src/main.py`, lines 60-115) -/

/-- State of a `Corpus` object: the interning table `w2i` (a key's id is its
index, mirroring `defaultdict(lambda: len(self.w2i))`), the id-frequency table
`freq` (`defaultdict(int)`), the per-language id ranges `vocab_range`, and the
`window_size` set by the constructor. -/
structure CorpusState where
  w2i : List String
  freq : ℕ → ℕ
  vocab_range : String → Option (ℕ × ℕ)
  window_size : ℕ

/-- Sentinel id of the token with key `<unk>` (interned first, so id 0). -/
def UNK : ℕ := 0

/-- Sentinel id of the token with key `<s>` (interned second, so id 1). -/
def BOS : ℕ := 1

/-- Sentinel id of the token with key `</s>` (interned third, so id 2). -/
def EOS : ℕ := 2

/-- `Corpus.__init__`: intern the three sentinel keys (ids 0, 1, 2), set their
frequencies to 0 (the `freq` default is already 0 everywhere), no language
ranges yet. -/
def initCorpus (window_size : ℕ) : CorpusState :=
  { w2i := ["<unk>", "<s>", "</s>"]
    freq := fun _ => 0
    vocab_range := fun _ => none
    window_size := window_size }

/-- Look up a key in the interning table, appending it with the next free id if
absent: the behaviour of `self.w2i[key]` with `w2i = defaultdict(lambda: len(self.w2i))`. -/
def intern (tbl : List String) (k : String) : List String × ℕ :=
  match tbl.findIdx? (fun x => x = k) with
  | some i => (tbl, i)
  | none => (tbl ++ [k], tbl.length)

/-- Intern every token of a line under its language-qualified key, in order:
`indices = [self.w2i[lang + ':' + w] for w in words]`. -/
def internLine (lang : String) : List String → List String → List String × List ℕ
  | tbl, [] => (tbl, [])
  | tbl, w :: rest =>
    match intern tbl (lang ++ ":" ++ w) with
    | (t1, i) =>
      match internLine lang t1 rest with
      | (t2, ids) => (t2, i :: ids)

/-- `for idx in indices: self.freq[idx] += 1` (one increment per occurrence). -/
def bumpFreq (f : ℕ → ℕ) (ids : List ℕ) : ℕ → ℕ :=
  ids.foldl (fun g i => fun j => if j = i then g j + 1 else g j) f

/-- Body of the per-line loop of `Corpus.read` (lines 96-105): skip the line if
it has fewer than `2 * window_size - 1` tokens, otherwise intern its tokens,
optionally count them, and yield `[BOS] + indices + [EOS]`. -/
def processLine (st : CorpusState) (lang : String) (words : List String)
    (count : Bool) : CorpusState × Option (List ℕ) :=
  if words.length < 2 * st.window_size - 1 then (st, none)
  else
    match internLine lang st.w2i words with
    | (tbl, ids) =>
      ({ st with w2i := tbl, freq := if count then bumpFreq st.freq ids else st.freq },
       some (BOS :: (ids ++ [EOS])))

/-- The line loop of `Corpus.read`, threading the corpus state and collecting
the yielded sentences in order. -/
def readLines (lang : String) (count : Bool) :
    CorpusState → List (List String) → CorpusState × List (List ℕ)
  | st, [] => (st, [])
  | st, ws :: rest =>
    match processLine st lang ws count with
    | (st1, os) =>
      match readLines lang count st1 rest with
      | (st2, sents) => (st2, os.toList ++ sents)

/-- `Corpus.read` (fully consumed, as `list(corpus.read(...))` does in `main`):
record `vocab_start = len(self.w2i)` before the loop, read every line, then set
`self.vocab_range[lang] = (vocab_start, len(self.w2i))`. A line is given as its
whitespace-split token list (`line.strip().split()` is the injected tokenizer). -/
def Corpus.read (st : CorpusState) (corpusLines : List (List String)) (lang : String)
    (count : Bool) : CorpusState × List (List ℕ) :=
  let vocab_start := st.w2i.length
  match readLines lang count st corpusLines with
  | (st1, sents) =>
    ({ st1 with
        vocab_range := fun l =>
          if l = lang then some (vocab_start, st1.w2i.length) else st1.vocab_range l },
     sents)

/-- `Corpus.get_vocabsize`: `len(self.w2i)`. -/
def Corpus.get_vocabsize (st : CorpusState) : ℕ := st.w2i.length

/-! ## Batch generation (`generate_batch`, lines 118-137) -/

/-- The two slices around a centre position: `sent[pos - window:pos] +
sent[pos + 1:pos + window + 1]` (the loop guarantees `window ≤ pos`). -/
def windowContext (window : ℕ) (sent : List ℕ) (pos : ℕ) : List ℕ :=
  (sent.drop (pos - window)).take window ++ (sent.drop (pos + 1)).take window

/-- The `(context, target)` pairs one sentence contributes, in loop order:
`for pos in range(window, l - window)` (so `(l - window) - window` positions
starting at `window`), context from `windowContext`, target `sent[pos]`. -/
def sentPairs (window : ℕ) (sent : List ℕ) : List (List ℕ × ℕ) :=
  (List.range' window (sent.length - 2 * window)).map fun pos =>
    (windowContext window sent pos, sent.getD pos 0)

/-- The accumulate-and-emit loop of `generate_batch`: append each pair to the
running `contexts`/`targets`, increment `count`, and emit a batch (then reset)
once `count >= batch_size`; whatever remains at the end of the stream is
discarded, never flushed. -/
def emitBatches (batch_size : ℕ) :
    List (List ℕ × ℕ) → List (List ℕ) → List ℕ → ℕ → List (List (List ℕ) × List ℕ)
  | [], _, _, _ => []
  | p :: rest, contexts, targets, count =>
    if batch_size ≤ count + 1 then
      (contexts ++ [p.1], targets ++ [p.2]) :: emitBatches batch_size rest [] [] 0
    else
      emitBatches batch_size rest (contexts ++ [p.1]) (targets ++ [p.2]) (count + 1)

/-- `generate_batch(sents, window, batch_size)`: the nested sentence/position
loops produce the concatenation of each sentence's `sentPairs`, fed through the
accumulate-and-emit loop with an empty accumulator. -/
def generate_batch (sents : List (List ℕ)) (window batch_size : ℕ) :
    List (List (List ℕ) × List ℕ) :=
  emitBatches batch_size (sents.flatMap (sentPairs window)) [] [] 0

/-! ## CBOW model (`CBOW`, lines 28-57) -/

/-- Mean-pooled context vector: `self.embeddings_x(X).mean(dim=1)` for one
example's context ids. -/
def contextVec {D : ℕ} (embeddings_x : ℕ → Fin D → ℚ) (ctx : List ℕ) : Fin D → ℚ :=
  fun i => ((ctx.map fun w => embeddings_x w i).sum) / (ctx.length : ℚ)

/-- `CBOW.forward(X, y)`: per example, the dot product of the target-side
embedding of `y` with the mean-pooled context vector
(`torch.mul(target, context).sum(dim=1)`). -/
def CBOW.forward {D : ℕ} (embeddings_x embeddings_y : ℕ → Fin D → ℚ)
    (X : List (List ℕ)) (y : List ℕ) : List ℚ :=
  (X.zip y).map fun ct =>
    ∑ i, embeddings_y ct.2 i * contextVec embeddings_x ct.1 i

/-- `CBOW.forward_neg(X, y)`: per example, the batched matrix product
`torch.bmm(target, context)` scoring each of that example's negative target ids
against the same mean-pooled context vector. -/
def CBOW.forward_neg {D : ℕ} (embeddings_x embeddings_y : ℕ → Fin D → ℚ)
    (X : List (List ℕ)) (y : List (List ℕ)) : List (List ℚ) :=
  (X.zip y).map fun cns =>
    cns.2.map fun t => ∑ i, embeddings_y t i * contextVec embeddings_x cns.1 i

/-! ## Negative-sampling loss (`NegativeSamplingLoss`, lines 140-180) -/

/-- The elementwise smoothing `self.p **= 0.75` applied to a count. -/
noncomputable def smooth (c : ℕ) : ℝ := (c : ℝ) ^ ((0.75 : ℝ))

/-- `freq.items()` for the corpus frequency dict: ids are inserted into `freq`
in ascending id order (sentinels 0,1,2 first, then first-occurrence order,
which is id-assignment order), so the items list is the graph of the count
function on `[0, n)`. -/
def freqItemsOf (n : ℕ) (f : ℕ → ℕ) : List (ℕ × ℕ) :=
  (List.range n).map fun i => (i, f i)

/-- A stable insertion step: place `x` after every already-placed element whose
second component (the count) is not larger. -/
def insertByCount (x : ℕ × ℕ) : List (ℕ × ℕ) → List (ℕ × ℕ)
  | [] => [x]
  | y :: ys => if y.2 ≤ x.2 then y :: insertByCount x ys else x :: y :: ys

/-- `sorted(freq.items(), key=lambda t: t[1])`: Python's `sorted` is a stable
sort by the key, here the count; a stable sort is a single well-defined
function of the input list, realised here by stable insertion in input
order. -/
def sortFreqItems (items : List (ℕ × ℕ)) : List (ℕ × ℕ) :=
  items.foldl (fun acc x => insertByCount x acc) []

/-- The state a `NegativeSamplingLoss` holds after `calc_prior`: the two
renormalized language-slice priors, the (never used) `offset_trg`, and
`sample_size`. -/
structure NSL where
  p_src : List ℝ
  p_trg : List ℝ
  offset_trg : ℕ
  sample_size : ℕ

/-- `NegativeSamplingLoss.__init__`/`calc_prior` (lines 141-156): build
`p = [v for i, v in sorted(freq.items(), key=lambda t: t[1])] ** 0.75`, slice
`p_src = p[:ranges[src][1]]` and `p_trg = p[ranges[trg][0]:]`, renormalize each
slice by its own sum, and record `offset_trg = ranges[trg][0]`. -/
noncomputable def NSL.make (freq : List (ℕ × ℕ)) (ranges : String → ℕ × ℕ)
    (src trg : String) (sample_size : ℕ) : NSL :=
  let p : List ℝ := (sortFreqItems freq).map fun t => smooth t.2
  let p_src := p.take (ranges src).2
  let p_trg := p.drop (ranges trg).1
  { p_src := p_src.map fun x => x / p_src.sum
    p_trg := p_trg.map fun x => x / p_trg.sum
    offset_trg := (ranges trg).1
    sample_size := sample_size }

/-- The set of ids the cross-language draw of `NegativeSamplingLoss.__call__`
(lines 170-173) can produce: `torch.multinomial(p_cross, ·, replacement=True)`
returns indices into `p_cross` drawn with probability proportional to their
entries — exactly the indices with positive entry — and the code uses those
indices directly as target ids (`offset_trg` is never added). With `src=True`
the cross distribution is `p_trg`, otherwise `p_src`. -/
def crossNegIds (nsl : NSL) (isSource : Bool) : Set ℕ :=
  {j | 0 < (if isSource then nsl.p_trg else nsl.p_src).getD j 0}

/-! ## Distribution-alignment loss (`DistributionLoss`, lines 183-233) -/

/-- State of a `DistributionLoss` object: per-language running mean `m`,
running covariance `v`, saturating sample count `scount`, `updated` flags, and
the two loss weights. Language `true` is `'src'`, `false` is `'trg'`. -/
structure DistState (D : ℕ) where
  m : Bool → Fin D → ℚ
  v : Bool → Fin D → Fin D → ℚ
  scount : Bool → ℕ
  updated : Bool → Bool
  lambda_m : ℚ
  lambda_v : ℚ

/-- `DistributionLoss.__init__(dim_emb, lambda_m=0.2, lambda_v=0.1)`: zero
means and covariances, zero counts, nothing updated. -/
def DistributionLoss.new (D : ℕ) : DistState D :=
  { m := fun _ _ => 0
    v := fun _ _ _ => 0
    scount := fun _ => 0
    updated := fun _ => false
    lambda_m := 1 / 5
    lambda_v := 1 / 10 }

/-- `DistributionLoss.update_stats(model, x, lang)` on a single context window
`x` (shape `(1, 2*window)`, squeezed to `(2*window,)`, so `N = x.size(0)` is the
window length): `vec` sums the context-side embedding rows; `new_m = vec`
followed by the in-place `new_m += scount * m` leaves `vec` aliased to the
blended vector, so the covariance's `diff = self.m[lang] - vec` is taken
against that blended vector, not the original aggregate; `scount` saturates at
100000 and the language is flagged updated. The two `is not None` guards are
always true (`__init__` stores zero tensors), so they are inlined. -/
def DistributionLoss.update_stats {D : ℕ} (st : DistState D)
    (embeddings_x : ℕ → Fin D → ℚ) (x : List ℕ) (lang : Bool) : DistState D :=
  let N : ℚ := (x.length : ℚ)
  let c : ℚ := (st.scount lang : ℚ)
  let vec : Fin D → ℚ := fun i => (x.map fun w => embeddings_x w i).sum
  let vecMut : Fin D → ℚ := fun i => vec i + c * st.m lang i
  let m2 : Fin D → ℚ := fun i => vecMut i / (c + N)
  let diff : Fin D → ℚ := fun i => m2 i - vecMut i
  let v2 : Fin D → Fin D → ℚ := fun i j =>
    (diff i * diff j + c * st.v lang i j) / (c + N)
  { st with
    m := fun l => if l = lang then m2 else st.m l
    v := fun l => if l = lang then v2 else st.v l
    scount := fun l => if l = lang then min 100000 (st.scount lang + x.length) else st.scount l
    updated := fun l => if l = lang then true else st.updated l }

/-- `DistributionLoss.__call__(model, x, src)` (lines 192-205): update the
statistics of the batch's language first; return `None` while one of the two
languages has never been updated, and otherwise
`lambda_m * ||m_src - m_trg||^2 / 2 + lambda_v * ||v_src - v_trg||^2 / 2`. -/
def DistributionLoss.call {D : ℕ} (st : DistState D)
    (embeddings_x : ℕ → Fin D → ℚ) (x : List ℕ) (src : Bool) :
    DistState D × Option ℚ :=
  let st1 := DistributionLoss.update_stats st embeddings_x x src
  if st1.updated true && st1.updated false then
    (st1, some (st1.lambda_m * (∑ i, (st1.m true i - st1.m false i) ^ 2) / 2
              + st1.lambda_v * (∑ i, ∑ j, (st1.v true i j - st1.v false i j) ^ 2) / 2))
  else
    (st1, none)

/-! ## Seeding in `main` (lines 245-254)

`main` seeds exactly two generators: `torch.cuda.manual_seed(args.random_seed)`
when CUDA is both available and enabled, and `np.random.seed(args.random_seed)`.
`torch.manual_seed` is never called, so the CPU generator of `torch` — the one
consumed by `nn.Embedding`'s weight initialisation and by `torch.multinomial`
in `NegativeSamplingLoss.__call__` — keeps whatever state the process started
with. -/

/-- The three process-wide generator states relevant to the run: numpy's
(shuffling), torch's CPU generator (embedding-weight draws and
`torch.multinomial`), and torch's CUDA generator. States are abstracted as
natural numbers. -/
structure RngEnv where
  np : ℕ
  torchCpu : ℕ
  torchCuda : ℕ
deriving DecidableEq

/-- The seeding performed at the top of `main` (lines 252-254), as a function
of the seed, the two CUDA flags, and the pre-existing process RNG state. -/
def seedRngs (random_seed : ℕ) (cudaAvailable useCuda : Bool) (env : RngEnv) : RngEnv :=
  { np := random_seed
    torchCpu := env.torchCpu
    torchCuda := if cudaAvailable && useCuda then random_seed else env.torchCuda }

/-! ## Concrete inputs used by counterexamples and witnesses -/

/-- Source-language code used in the concrete scenarios (the default `src='en'`). -/
def srcLang : String := "en"

/-- Target-language code used in the concrete scenarios (the default `trg='it'`). -/
def trgLang : String := "it"

/-- Language ranges of a 7-id vocabulary: sentinels 0-2, source ids `[3, 5)`,
target ids `[5, 7)`. -/
def rangesEx : String → ℕ × ℕ := fun l =>
  if l = srcLang then (3, 5) else if l = trgLang then (5, 7) else (0, 0)

/-- Frequency table where every non-sentinel id was seen once. -/
def fEx1 : ℕ → ℕ := fun i => if i < 3 then 0 else 1

/-- Frequency table where source id 3 was seen 16 times and every other
non-sentinel id once. -/
def fEx2 : ℕ → ℕ := fun i => if i < 3 then 0 else if i = 3 then 16 else 1

/-- A one-dimensional embedding table: id 0 embeds to 1, every other id to 0. -/
def embEx : ℕ → Fin 1 → ℚ := fun w _ => if w = 0 then 1 else 0

/-! ## Helper lemmas -/

/-- A Python slice `s[a:a+w]` that stays inside the list equals the
index-by-index description of its entries. -/
theorem slice_eq_map_range (s : List ℕ) (a w : ℕ) (h : a + w ≤ s.length) :
    (s.drop a).take w = (List.range w).map fun j => s.getD (a + j) 0 := by
  apply List.ext_getElem
  · simp only [List.length_take, List.length_drop, List.length_map, List.length_range]
    omega
  · intro n h1 h2
    have hn : a + n < s.length := by
      simp only [List.length_take, List.length_drop] at h1
      omega
    simp only [List.getElem_take, List.getElem_drop, List.getElem_map, List.getElem_range]
    rw [List.getD_eq_getElem s 0 hn]

/-- Every batch built by the accumulate-and-emit loop from an accumulator that
is still below `batch_size` has exactly `batch_size` contexts and targets. -/
theorem emitBatches_sizes (bs : ℕ) (hbs : 1 ≤ bs) :
    ∀ (ps : List (List ℕ × ℕ)) (ctxs : List (List ℕ)) (tgts : List ℕ) (count : ℕ),
      ctxs.length = count → tgts.length = count → count < bs →
      ∀ b ∈ emitBatches bs ps ctxs tgts count, b.1.length = bs ∧ b.2.length = bs := by
  intro ps
  induction ps with
  | nil =>
    intro ctxs tgts count _ _ _ b hb
    simp [emitBatches] at hb
  | cons p rest ih =>
    intro ctxs tgts count h1 h2 h3 b hb
    simp only [emitBatches] at hb
    by_cases hc : bs ≤ count + 1
    · rw [if_pos hc] at hb
      rcases List.mem_cons.mp hb with h | h
      · subst h
        constructor
        · simp only [List.length_append, List.length_cons, List.length_nil, h1]
          omega
        · simp only [List.length_append, List.length_cons, List.length_nil, h2]
          omega
      · exact ih [] [] 0 rfl rfl (by omega) b h
    · rw [if_neg hc] at hb
      refine ih _ _ _ ?_ ?_ (by omega) b hb
      · simp [h1]
      · simp [h2]

/-- If the pair stream is too short to ever fill a batch, the
accumulate-and-emit loop yields nothing. -/
theorem emitBatches_short (bs : ℕ) :
    ∀ (ps : List (List ℕ × ℕ)) (ctxs : List (List ℕ)) (tgts : List ℕ) (count : ℕ),
      ps.length + count < bs → emitBatches bs ps ctxs tgts count = [] := by
  intro ps
  induction ps with
  | nil => intro _ _ _ _; simp [emitBatches]
  | cons p rest ih =>
    intro ctxs tgts count h
    simp only [List.length_cons] at h
    simp only [emitBatches]
    rw [if_neg (by omega)]
    exact ih _ _ _ (by omega)

/-! ## Claim theorems -/

/-- C8: for every sentence and window radius, the pair stream of
`generate_batch` contains, in centre-position order, exactly one pair per
centre position `p` in `[window, L - window)`, whose context is the ids at
positions `[p - window, p)` followed by those at `[p + 1, p + window + 1)`
(centre excluded) and whose target is the id at `p` — and no other pairs. -/
theorem window_pairs_exact (w : ℕ) (s : List ℕ) :
    sentPairs w s = (List.range' w (s.length - 2 * w)).map fun p =>
      ((List.range w).map (fun j => s.getD (p - w + j) 0) ++
         (List.range w).map (fun j => s.getD (p + 1 + j) 0),
       s.getD p 0) := by
  unfold sentPairs
  apply List.map_congr_left
  intro p hp
  rw [List.mem_range'_1] at hp
  obtain ⟨h1, h2⟩ := hp
  unfold windowContext
  simp only [Prod.mk.injEq]
  refine ⟨?_, trivial⟩
  rw [slice_eq_map_range s (p - w) w (by omega), slice_eq_map_range s (p + 1) w (by omega)]

/-- C10: scoring each target id as a one-column matrix of negatives with
`CBOW.forward_neg` produces exactly the singleton of the score that
`CBOW.forward` assigns the same positive pair: the two scoring paths agree. -/
theorem forward_neg_singletons_match_forward {D : ℕ}
    (embeddings_x embeddings_y : ℕ → Fin D → ℚ) (X : List (List ℕ)) (y : List ℕ) :
    CBOW.forward_neg embeddings_x embeddings_y X (y.map fun t => [t]) =
      (CBOW.forward embeddings_x embeddings_y X y).map fun sc => [sc] := by
  unfold CBOW.forward CBOW.forward_neg
  rw [List.zip_map_right, List.map_map, List.map_map]
  apply List.map_congr_left
  intro a _
  rfl

/-- C5 (amended: `batch_size ≥ 1`): every batch emitted by `generate_batch`
has exactly `batch_size` pairs, and if the corpus yields fewer than
`batch_size` window positions in total, no batch at all is emitted (the final
partial accumulation is discarded, never flushed). -/
theorem generate_batch_sizes (sents : List (List ℕ)) (window batch_size : ℕ)
    (h : 1 ≤ batch_size) :
    (∀ b ∈ generate_batch sents window batch_size,
        b.1.length = batch_size ∧ b.2.length = batch_size) ∧
    ((sents.flatMap (sentPairs window)).length < batch_size →
        generate_batch sents window batch_size = []) := by
  constructor
  · intro b hb
    exact emitBatches_sizes batch_size h _ [] [] 0 rfl rfl (by omega) b hb
  · intro hlen
    exact emitBatches_short batch_size _ [] [] 0 (by omega)

/-- C5 counterexample: with `batch_size = 0`, `generate_batch` emits a batch
whose pair count is 1, not `batch_size`, so the claim fails without the
`batch_size ≥ 1` restriction. -/
theorem generate_batch_zero_size_cex :
    ∃ b ∈ generate_batch [[0, 0, 0]] 1 0, b.2.length ≠ 0 := by decide

/-- C5 witness: the amended theorem applied to a one-sentence corpus. -/
theorem generate_batch_sizes_witness :
    (∀ b ∈ generate_batch [[0, 0, 0]] 1 2, b.1.length = 2 ∧ b.2.length = 2) ∧
    ((([[0, 0, 0]] : List (List ℕ)).flatMap (sentPairs 1)).length < 2 →
        generate_batch [[0, 0, 0]] 1 2 = []) :=
  generate_batch_sizes [[0, 0, 0]] 1 2 (by decide)

/-- Interning a line produces one id per token. -/
theorem internLine_ids_length (lang : String) :
    ∀ (ws tbl : List String), (internLine lang tbl ws).2.length = ws.length := by
  intro ws
  induction ws with
  | nil => intro tbl; rfl
  | cons w rest ih =>
    intro tbl
    rcases hI : intern tbl (lang ++ ":" ++ w) with ⟨t1, i⟩
    rcases hR : internLine lang t1 rest with ⟨t2, ids⟩
    have hlen := ih t1
    rw [hR] at hlen
    simp only [internLine, hI, hR, List.length_cons, hlen]

/-- Interning never shrinks the table. -/
theorem intern_tbl_le (tbl : List String) (k : String) :
    tbl.length ≤ (intern tbl k).1.length := by
  unfold intern
  split
  · exact le_refl _
  · simp

/-- Interning a line never shrinks the table. -/
theorem internLine_tbl_le (lang : String) :
    ∀ (ws tbl : List String), tbl.length ≤ (internLine lang tbl ws).1.length := by
  intro ws
  induction ws with
  | nil => intro tbl; exact le_refl _
  | cons w rest ih =>
    intro tbl
    rcases hI : intern tbl (lang ++ ":" ++ w) with ⟨t1, i⟩
    rcases hR : internLine lang t1 rest with ⟨t2, ids⟩
    have h1 := intern_tbl_le tbl (lang ++ ":" ++ w)
    rw [hI] at h1
    have h2 := ih t1
    rw [hR] at h2
    simp only [internLine, hI, hR]
    exact le_trans h1 h2

/-- Processing one line never shrinks the vocabulary. -/
theorem processLine_w2i_le (st : CorpusState) (lang : String) (ws : List String)
    (count : Bool) : st.w2i.length ≤ (processLine st lang ws count).1.w2i.length := by
  unfold processLine
  split
  · exact le_refl _
  · rcases hI : internLine lang st.w2i ws with ⟨tbl, ids⟩
    have h := internLine_tbl_le lang ws st.w2i
    rw [hI] at h
    simpa [hI] using h

/-- Processing one line leaves the recorded language ranges unchanged. -/
theorem processLine_range_eq (st : CorpusState) (lang : String) (ws : List String)
    (count : Bool) : (processLine st lang ws count).1.vocab_range = st.vocab_range := by
  unfold processLine
  split
  · rfl
  · rcases hI : internLine lang st.w2i ws with ⟨tbl, ids⟩
    simp [hI]

/-- The line loop never shrinks the vocabulary. -/
theorem readLines_w2i_le (lang : String) (count : Bool) :
    ∀ (ls : List (List String)) (st : CorpusState),
      st.w2i.length ≤ (readLines lang count st ls).1.w2i.length := by
  intro ls
  induction ls with
  | nil => intro st; exact le_refl _
  | cons ws rest ih =>
    intro st
    rcases hP : processLine st lang ws count with ⟨st1, os⟩
    rcases hR : readLines lang count st1 rest with ⟨st2, sents⟩
    have h1 := processLine_w2i_le st lang ws count
    rw [hP] at h1
    have h2 := ih st1
    rw [hR] at h2
    simp only [readLines, hP, hR]
    exact le_trans h1 h2

/-- The line loop leaves the recorded language ranges unchanged. -/
theorem readLines_range_eq (lang : String) (count : Bool) :
    ∀ (ls : List (List String)) (st : CorpusState),
      (readLines lang count st ls).1.vocab_range = st.vocab_range := by
  intro ls
  induction ls with
  | nil => intro st; rfl
  | cons ws rest ih =>
    intro st
    rcases hP : processLine st lang ws count with ⟨st1, os⟩
    rcases hR : readLines lang count st1 rest with ⟨st2, sents⟩
    have h1 := processLine_range_eq st lang ws count
    rw [hP] at h1
    have h2 := ih st1
    rw [hR] at h2
    simp only [readLines, hP, hR]
    exact h2.trans h1

/-- What one full `Corpus.read` does to the corpus state: it records
`[len(w2i) before, len(w2i) after)` for its own language, leaves every other
language's range alone, and never shrinks the vocabulary. -/
theorem read_state_spec (st : CorpusState) (ls : List (List String)) (lang : String)
    (c : Bool) :
    ((Corpus.read st ls lang c).1.vocab_range = fun l =>
        if l = lang then some (st.w2i.length, (Corpus.read st ls lang c).1.w2i.length)
        else st.vocab_range l) ∧
    st.w2i.length ≤ (Corpus.read st ls lang c).1.w2i.length := by
  unfold Corpus.read
  rcases hR : readLines lang c st ls with ⟨s1, sents⟩
  constructor
  · have h := readLines_range_eq lang c ls st
    rw [hR] at h
    funext l
    simp only
    split
    · rfl
    · exact congrFun h l
  · have h := readLines_w2i_le lang c ls st
    rw [hR] at h
    simpa using h

/-- C9: a line with fewer than `2*window - 1` tokens yields no sentence, and
an accepted line yields a sentence of length `token count + 2` that starts with
the BOS sentinel and ends with the EOS sentinel. -/
theorem read_line_shape (st : CorpusState) (lang : String) (ws : List String)
    (count : Bool) :
    ((processLine st lang ws count).2 = none ↔ ws.length < 2 * st.window_size - 1) ∧
    ∀ s, (processLine st lang ws count).2 = some s →
      s.length = ws.length + 2 ∧ s.head? = some BOS ∧ s.getLast? = some EOS := by
  unfold processLine
  by_cases h : ws.length < 2 * st.window_size - 1
  · rw [if_pos h]
    refine ⟨iff_of_true rfl h, ?_⟩
    intro s hs
    simp at hs
  · rw [if_neg h]
    rcases hI : internLine lang st.w2i ws with ⟨tbl, ids⟩
    have hlen := internLine_ids_length lang ws st.w2i
    rw [hI] at hlen
    constructor
    · exact iff_of_false (by simp) h
    · intro s hs
      simp only at hs
      cases hs
      refine ⟨?_, rfl, ?_⟩
      · simp [List.length_append, hlen]
      · show ((BOS :: ids) ++ [EOS]).getLast? = some EOS
        exact List.getLast?_concat _

/-- C9 witness: the two-token line `a b` read with window 1 into a fresh corpus
becomes the sentence `[1, 3, 4, 2]` of length 2 + 2, BOS-first and EOS-last. -/
theorem read_line_shape_witness :
    ([1, 3, 4, 2] : List ℕ).length = (["a", "b"] : List String).length + 2 ∧
    ([1, 3, 4, 2] : List ℕ).head? = some BOS ∧
    ([1, 3, 4, 2] : List ℕ).getLast? = some EOS :=
  (read_line_shape (initCorpus 1) srcLang ["a", "b"] true).2 [1, 3, 4, 2] (by decide)

/-- C6: after the two corpora are read in sequence from a fresh corpus, the two
recorded ranges are consecutive disjoint half-open intervals starting at id 3,
and their union together with the sentinel ids 0, 1, 2 is exactly
`[0, final_vocab_size)`. -/
theorem vocab_ranges_partition (w : ℕ) (lines1 lines2 : List (List String))
    (lang1 lang2 : String) (c1 c2 : Bool) (hne : lang1 ≠ lang2) :
    ∃ a b : ℕ,
      (Corpus.read (Corpus.read (initCorpus w) lines1 lang1 c1).1 lines2 lang2 c2).1.vocab_range
          lang1 = some (3, a) ∧
      (Corpus.read (Corpus.read (initCorpus w) lines1 lang1 c1).1 lines2 lang2 c2).1.vocab_range
          lang2 = some (a, b) ∧
      b = Corpus.get_vocabsize
          (Corpus.read (Corpus.read (initCorpus w) lines1 lang1 c1).1 lines2 lang2 c2).1 ∧
      Disjoint (Set.Ico 3 a) (Set.Ico a b) ∧
      (Set.Ico 3 a ∪ Set.Ico a b ∪ {0, 1, 2} : Set ℕ) = Set.Ico 0 b := by
  obtain ⟨hvr1, hle1⟩ := read_state_spec (initCorpus w) lines1 lang1 c1
  set stA := (Corpus.read (initCorpus w) lines1 lang1 c1).1 with hA
  obtain ⟨hvr2, hle2⟩ := read_state_spec stA lines2 lang2 c2
  set stB := (Corpus.read stA lines2 lang2 c2).1 with hB
  have h3 : (initCorpus w).w2i.length = 3 := rfl
  have h3a : 3 ≤ stA.w2i.length := h3 ▸ hle1
  have hab : stA.w2i.length ≤ stB.w2i.length := hle2
  refine ⟨stA.w2i.length, stB.w2i.length, ?_, ?_, rfl, Set.Ico_disjoint_Ico_same, ?_⟩
  · rw [hvr2]
    simp only [if_neg hne]
    rw [hvr1]
    simp [h3]
  · rw [hvr2]
    simp
  · ext i
    simp only [Set.mem_union, Set.mem_Ico, Set.mem_insert_iff, Set.mem_singleton_iff]
    omega

/-- C6 witness: reading a two-token English line and then a one-token Italian
line records the ranges `[3, 5)` and `[5, 6)`, which partition `[0, 6)`
together with the sentinels. -/
theorem vocab_ranges_partition_witness :
    ∃ a b : ℕ,
      (Corpus.read (Corpus.read (initCorpus 1) [["a", "b"]] srcLang true).1 [["a"]] trgLang
          true).1.vocab_range srcLang = some (3, a) ∧
      (Corpus.read (Corpus.read (initCorpus 1) [["a", "b"]] srcLang true).1 [["a"]] trgLang
          true).1.vocab_range trgLang = some (a, b) ∧
      b = Corpus.get_vocabsize
          (Corpus.read (Corpus.read (initCorpus 1) [["a", "b"]] srcLang true).1 [["a"]] trgLang
              true).1 ∧
      Disjoint (Set.Ico 3 a) (Set.Ico a b) ∧
      (Set.Ico 3 a ∪ Set.Ico a b ∪ {0, 1, 2} : Set ℕ) = Set.Ico 0 b :=
  vocab_ranges_partition 1 [["a", "b"]] [["a"]] srcLang trgLang true true (by decide)

/-- C4 counterexample: on the second update of a language the code's new
covariance (here `5/2`) differs from the claimed recurrence value (here `1/2`)
in which the deviation is taken against the pristine aggregate vector `v`: the
in-place `new_m += scount * m` has already overwritten the aggregate. -/
theorem update_stats_cov_cex :
    ((DistributionLoss.update_stats
        (DistributionLoss.update_stats (DistributionLoss.new 1) embEx [0, 0] true)
        embEx [0, 0] true).v true 0 0 = 5 / 2) ∧
    (let st1 := DistributionLoss.update_stats (DistributionLoss.new 1) embEx [0, 0] true
     let st2 := DistributionLoss.update_stats st1 embEx [0, 0] true
     let vec : ℚ := (([0, 0] : List ℕ).map fun w => embEx w 0).sum
     ((st2.m true 0 - vec) * (st2.m true 0 - vec) +
         (st1.scount true : ℚ) * st1.v true 0 0) /
        ((st1.scount true : ℚ) + (([0, 0] : List ℕ).length : ℚ)) = 1 / 2) ∧
    (5 : ℚ) / 2 ≠ 1 / 2 :=
  ⟨by norm_num [DistributionLoss.update_stats, DistributionLoss.new, embEx],
   by norm_num [DistributionLoss.update_stats, DistributionLoss.new, embEx],
   by norm_num⟩

/-- C4 (amended): `update_stats` sets the new mean to `(v + c*m) / (c + N)` as
claimed, but the covariance deviation is taken against the blended vector
`v + c*m` (aliased by the in-place `+=`), not against the aggregate `v`;
equivalently, for a nonempty window the deviation is `(1 - (c+N))` times the
updated mean. -/
theorem update_stats_recurrence {D : ℕ} (st : DistState D) (emb : ℕ → Fin D → ℚ)
    (x : List ℕ) (lang : Bool) (hx : x ≠ []) :
    ∀ i j : Fin D,
      (DistributionLoss.update_stats st emb x lang).m lang i =
        ((x.map fun w => emb w i).sum + (st.scount lang : ℚ) * st.m lang i) /
          ((st.scount lang : ℚ) + (x.length : ℚ)) ∧
      (DistributionLoss.update_stats st emb x lang).v lang i j =
        (((DistributionLoss.update_stats st emb x lang).m lang i -
            ((x.map fun w => emb w i).sum + (st.scount lang : ℚ) * st.m lang i)) *
          ((DistributionLoss.update_stats st emb x lang).m lang j -
            ((x.map fun w => emb w j).sum + (st.scount lang : ℚ) * st.m lang j)) +
          (st.scount lang : ℚ) * st.v lang i j) /
          ((st.scount lang : ℚ) + (x.length : ℚ)) ∧
      (DistributionLoss.update_stats st emb x lang).v lang i j =
        ((1 - ((st.scount lang : ℚ) + (x.length : ℚ))) *
            (DistributionLoss.update_stats st emb x lang).m lang i *
          ((1 - ((st.scount lang : ℚ) + (x.length : ℚ))) *
            (DistributionLoss.update_stats st emb x lang).m lang j) +
          (st.scount lang : ℚ) * st.v lang i j) /
          ((st.scount lang : ℚ) + (x.length : ℚ)) := by
  intro i j
  have hxlen : 1 ≤ x.length := List.length_pos.mpr hx
  have hN : (0 : ℚ) < (st.scount lang : ℚ) + (x.length : ℚ) := by
    have h1 : (1 : ℚ) ≤ (x.length : ℚ) := by exact_mod_cast hxlen
    have h2 : (0 : ℚ) ≤ (st.scount lang : ℚ) := by positivity
    linarith
  have hNe : ((st.scount lang : ℚ) + (x.length : ℚ)) ≠ 0 := ne_of_gt hN
  refine ⟨?_, ?_, ?_⟩
  · simp [DistributionLoss.update_stats]
  · simp [DistributionLoss.update_stats]
  · simp only [DistributionLoss.update_stats, if_pos]
    congr 1
    congr 1
    field_simp
    ring

/-- C4 witness: the amended recurrence evaluated on a concrete two-id window
against a fresh estimator. -/
theorem update_stats_recurrence_witness :
    ([0, 0] : List ℕ) ≠ [] ∧
    (DistributionLoss.update_stats (DistributionLoss.new 1) embEx [0, 0] true).m true 0 =
      ((([0, 0] : List ℕ).map fun w => embEx w 0).sum +
          ((DistributionLoss.new 1).scount true : ℚ) * (DistributionLoss.new 1).m true 0) /
        (((DistributionLoss.new 1).scount true : ℚ) + (([0, 0] : List ℕ).length : ℚ)) :=
  ⟨by decide,
   (update_stats_recurrence (DistributionLoss.new 1) embEx [0, 0] true (by decide) 0 0).1⟩

/-- C7: `DistributionLoss.__call__` returns `None` exactly while one of the two
languages has never been updated (counting the update the call itself performs
first), and once both have been it returns the non-negative scalar
`lambda_m * ||m_src - m_trg||^2 / 2 + lambda_v * ||v_src - v_trg||^2 / 2`
computed from the post-update statistics. -/
theorem distribution_loss_warmup {D : ℕ} (st : DistState D) (emb : ℕ → Fin D → ℚ)
    (x : List ℕ) (src : Bool) (hm : 0 ≤ st.lambda_m) (hv : 0 ≤ st.lambda_v) :
    ((DistributionLoss.call st emb x src).2 = none ↔
      ¬((st.updated true = true ∨ src = true) ∧ (st.updated false = true ∨ src = false))) ∧
    ∀ q, (DistributionLoss.call st emb x src).2 = some q →
      q = st.lambda_m *
            (∑ i, ((DistributionLoss.update_stats st emb x src).m true i -
                (DistributionLoss.update_stats st emb x src).m false i) ^ 2) / 2 +
          st.lambda_v *
            (∑ i, ∑ j, ((DistributionLoss.update_stats st emb x src).v true i j -
                (DistributionLoss.update_stats st emb x src).v false i j) ^ 2) / 2 ∧
      0 ≤ q := by
  have hS1 : (0 : ℚ) ≤
      ∑ i, ((DistributionLoss.update_stats st emb x src).m true i -
        (DistributionLoss.update_stats st emb x src).m false i) ^ 2 :=
    Finset.sum_nonneg fun i _ => sq_nonneg _
  have hS2 : (0 : ℚ) ≤
      ∑ i, ∑ j, ((DistributionLoss.update_stats st emb x src).v true i j -
        (DistributionLoss.update_stats st emb x src).v false i j) ^ 2 :=
    Finset.sum_nonneg fun i _ => Finset.sum_nonneg fun j _ => sq_nonneg _
  have hq : (0 : ℚ) ≤ st.lambda_m *
        (∑ i, ((DistributionLoss.update_stats st emb x src).m true i -
          (DistributionLoss.update_stats st emb x src).m false i) ^ 2) / 2 +
      st.lambda_v *
        (∑ i, ∑ j, ((DistributionLoss.update_stats st emb x src).v true i j -
          (DistributionLoss.update_stats st emb x src).v false i j) ^ 2) / 2 := by
    have h1 := div_nonneg (mul_nonneg hm hS1) (by norm_num : (0 : ℚ) ≤ 2)
    have h2 := div_nonneg (mul_nonneg hv hS2) (by norm_num : (0 : ℚ) ≤ 2)
    linarith
  unfold DistributionLoss.call
  cases src
  · cases hu : st.updated true
    · have hcond : ((DistributionLoss.update_stats st emb x false).updated true &&
          (DistributionLoss.update_stats st emb x false).updated false) = false := by
        simp [DistributionLoss.update_stats, hu]
      constructor
      · rw [if_neg (by simp [hcond])]
        simp [hu]
      · intro q hq2
        rw [if_neg (by simp [hcond])] at hq2
        simp at hq2
    · have hcond : ((DistributionLoss.update_stats st emb x false).updated true &&
          (DistributionLoss.update_stats st emb x false).updated false) = true := by
        simp [DistributionLoss.update_stats, hu]
      constructor
      · rw [if_pos hcond]
        simp [hu]
      · intro q hq2
        rw [if_pos hcond] at hq2
        simp only [Option.some.injEq] at hq2
        subst hq2
        exact ⟨rfl, hq⟩
  · cases hu : st.updated false
    · have hcond : ((DistributionLoss.update_stats st emb x true).updated true &&
          (DistributionLoss.update_stats st emb x true).updated false) = false := by
        simp [DistributionLoss.update_stats, hu]
      constructor
      · rw [if_neg (by simp [hcond])]
        simp [hu]
      · intro q hq2
        rw [if_neg (by simp [hcond])] at hq2
        simp at hq2
    · have hcond : ((DistributionLoss.update_stats st emb x true).updated true &&
          (DistributionLoss.update_stats st emb x true).updated false) = true := by
        simp [DistributionLoss.update_stats, hu]
      constructor
      · rw [if_pos hcond]
        simp [hu]
      · intro q hq2
        rw [if_pos hcond] at hq2
        simp only [Option.some.injEq] at hq2
        subst hq2
        exact ⟨rfl, hq⟩

/-- C7 witness: the very first call (source side, fresh estimator) returns
`None`, as only the source language has been updated. -/
theorem distribution_loss_warmup_witness :
    ((DistributionLoss.call (DistributionLoss.new 1) embEx [0] true).2 = none ↔
      ¬(((DistributionLoss.new 1).updated true = true ∨ true = true) ∧
        ((DistributionLoss.new 1).updated false = true ∨ true = false))) :=
  (distribution_loss_warmup (DistributionLoss.new 1) embEx [0] true
    (by norm_num [DistributionLoss.new]) (by norm_num [DistributionLoss.new])).1

/-- C2: the seeding `main` performs never touches the torch CPU generator —
the generator that drives `nn.Embedding` weight initialisation and every
`torch.multinomial` draw — so the process state after seeding (and with it the
run's output) is not a function of the seed and configuration alone: two
processes with the same seed and flags but different initial torch CPU states
are still different after seeding. -/
theorem seeding_misses_torch_cpu_rng :
    (∀ (s : ℕ) (ca uc : Bool) (env : RngEnv), (seedRngs s ca uc env).torchCpu = env.torchCpu) ∧
    (∃ e1 e2 : RngEnv, seedRngs 42 true true e1 ≠ seedRngs 42 true true e2) :=
  ⟨fun _ _ _ _ => rfl, ⟨⟨0, 0, 0⟩, ⟨0, 1, 0⟩, by decide⟩⟩

/-- The smoothing of a zero count is zero. -/
theorem smooth_eval_zero : smooth 0 = 0 := by
  unfold smooth
  rw [Nat.cast_zero]
  exact Real.zero_rpow (by norm_num)

/-- The smoothing of a unit count is one. -/
theorem smooth_eval_one : smooth 1 = 1 := by
  unfold smooth
  rw [Nat.cast_one]
  exact Real.one_rpow _

/-- The smoothing is strictly monotone past 1: `16 ** 0.75 > 1`. -/
theorem smooth_one_lt_sixteen : (1 : ℝ) < smooth 16 := by
  unfold smooth
  calc (1 : ℝ) = (1 : ℝ) ^ ((0.75 : ℝ)) := (Real.one_rpow _).symm
    _ < ((16 : ℕ) : ℝ) ^ ((0.75 : ℝ)) := by
        apply Real.rpow_lt_rpow (by norm_num) (by norm_num) (by norm_num)

/-- The smoothed value-sorted count vector of the all-ones frequency table. -/
theorem smoothed_sorted_ex1 :
    ((sortFreqItems (freqItemsOf 7 fEx1)).map fun t => smooth t.2) =
      [smooth 0, smooth 0, smooth 0, smooth 1, smooth 1, smooth 1, smooth 1] := by
  have hsort : sortFreqItems (freqItemsOf 7 fEx1) =
      [(0, 0), (1, 0), (2, 0), (3, 1), (4, 1), (5, 1), (6, 1)] := by decide
  rw [hsort]
  rfl

/-- The smoothed value-sorted count vector of the table with `freq(3) = 16`:
sorting by count moves id 3's entry to the end. -/
theorem smoothed_sorted_ex2 :
    ((sortFreqItems (freqItemsOf 7 fEx2)).map fun t => smooth t.2) =
      [smooth 0, smooth 0, smooth 0, smooth 1, smooth 1, smooth 1, smooth 16] := by
  have hsort : sortFreqItems (freqItemsOf 7 fEx2) =
      [(0, 0), (1, 0), (2, 0), (4, 1), (5, 1), (6, 1), (3, 16)] := by decide
  rw [hsort]
  rfl

/-- The cross distribution `p_trg` built from the all-ones table is the
two-entry uniform vector. -/
theorem ptrg_eval : (NSL.make (freqItemsOf 7 fEx1) rangesEx srcLang trgLang 5).p_trg
    = [1 / 2, 1 / 2] := by
  have hr : rangesEx trgLang = (5, 7) := by decide
  show (((sortFreqItems (freqItemsOf 7 fEx1)).map fun t => smooth t.2).drop
          (rangesEx trgLang).1).map
        (fun x => x /
          (((sortFreqItems (freqItemsOf 7 fEx1)).map fun t => smooth t.2).drop
            (rangesEx trgLang).1).sum)
      = [1 / 2, 1 / 2]
  rw [hr, smoothed_sorted_ex1, smooth_eval_zero, smooth_eval_one]
  have hdrop : ([0, 0, 0, 1, 1, 1, 1] : List ℝ).drop (5, 7).1 = [1, 1] := rfl
  rw [hdrop]
  norm_num

/-- The source prior built from the `freq(3) = 16` table: because the items
were sorted by count, the heavy id 3 was moved out of the `[0, 5)` slice and
positions 3 and 4 hold the two unit entries. -/
theorem psrc_eval : (NSL.make (freqItemsOf 7 fEx2) rangesEx srcLang trgLang 5).p_src
    = [0, 0, 0, 1 / 2, 1 / 2] := by
  have hr : rangesEx srcLang = (3, 5) := by decide
  show (((sortFreqItems (freqItemsOf 7 fEx2)).map fun t => smooth t.2).take
          (rangesEx srcLang).2).map
        (fun x => x /
          (((sortFreqItems (freqItemsOf 7 fEx2)).map fun t => smooth t.2).take
            (rangesEx srcLang).2).sum)
      = [0, 0, 0, 1 / 2, 1 / 2]
  rw [hr, smoothed_sorted_ex2, smooth_eval_zero, smooth_eval_one]
  have htake : ([0, 0, 0, 1, 1, 1, smooth 16] : List ℝ).take (3, 5).2 = [0, 0, 0, 1, 1] := rfl
  rw [htake]
  norm_num

/-- C1: with source range `[3, 5)` and target range `[5, 7)` and every
non-sentinel id seen once, a source-side (`is_source = true`) cross-language
draw can produce id 0 — an id with positive probability under the cross
distribution as the code uses it — which does not lie in the target range
`[5, 7)`: the multinomial indices into `p_trg` are used as target ids without
adding the recorded (but never used) `offset_trg`. -/
theorem cross_negatives_escape_target_range :
    0 ∈ crossNegIds (NSL.make (freqItemsOf 7 fEx1) rangesEx srcLang trgLang 5) true ∧
    0 ∉ Set.Ico (rangesEx trgLang).1 (rangesEx trgLang).2 := by
  constructor
  · simp only [crossNegIds, Set.mem_setOf_eq, if_true]
    rw [ptrg_eval]
    norm_num
  · have hr : rangesEx trgLang = (5, 7) := by decide
    rw [hr]
    simp

/-- C3: the prior the code builds over the source slice is not proportional to
`freq(id) ** 0.75` on that slice: with `freq(3) = 16` and `freq(4) = 1` the
code assigns ids 3 and 4 equal probability `1/2` (it sorted `freq.items()` by
count value, not by id), while proportionality would require the ratio
`16 ** 0.75`. -/
theorem prior_not_proportional_to_smoothed_freq :
    ¬ ∃ c : ℝ, ∀ i : ℕ, 3 ≤ i → i < 5 →
        (NSL.make (freqItemsOf 7 fEx2) rangesEx srcLang trgLang 5).p_src.getD i 0 =
          c * smooth (fEx2 i) := by
  rintro ⟨c, hc⟩
  have h3 := hc 3 (by norm_num) (by norm_num)
  have h4 := hc 4 (by norm_num) (by norm_num)
  rw [psrc_eval] at h3 h4
  rw [show fEx2 3 = 16 from rfl] at h3
  rw [show fEx2 4 = 1 from rfl, smooth_eval_one, mul_one] at h4
  rw [show (([0, 0, 0, 1 / 2, 1 / 2] : List ℝ).getD 3 0) = 1 / 2 from rfl] at h3
  rw [show (([0, 0, 0, 1 / 2, 1 / 2] : List ℝ).getD 4 0) = 1 / 2 from rfl] at h4
  have h16 := smooth_one_lt_sixteen
  rw [← h4] at h3
  nlinarith [h3, h16]
